import Mathlib

/-!
# Verification of the `Fortran-packages-list` scripts

Shallow embedding of `src/xfpm_c.py` (final iteration) and of the
extraction logic of `src/xfpm.py` (earlier iteration).

The network is modelled as an oracle `www : String → Nat → Except String Nat`
mapping a URL and an attempt index to the outcome of one HTTP HEAD request:
`Except.error e` models a raised `requests.RequestException` with message `e`,
`Except.ok c` models a response with status code `c`.
Standard output is modelled as the list of strings passed to `print`.
-/

/-! ## The regular-expression engine for the pattern used by both scripts

Both revisions call `re.search(r"\[.*?\]\((.*?)\)", text)` and read group 1.
The three functions below implement exactly that search: `.` matches any
character except a newline, `.*?` is lazy (the engine extends it one character
at a time on failure of the continuation), and the search tries successive
start positions from the left.
-/

/-- Match `(.*?)\)` against `cs`: the characters before the first `')'`,
provided no newline intervenes.  This is the capture group of the pattern. -/
def findCloseParen : List Char → Option (List Char)
  | [] => none
  | c :: rest =>
    if c = ')' then some []
    else if c = '\n' then none
    else (findCloseParen rest).map (fun g => c :: g)

/-- Match `.*?\]\((.*?)\)` against `cs` (the text after the opening `'['`),
with the backtracking of the lazy quantifier: at the first `']'` followed by
`'('` whose group closes, return the group; otherwise let `.*?` swallow the
character and continue. -/
def matchInner : List Char → Option (List Char)
  | [] => none
  | c :: rest =>
    if c = ']' then
      match rest with
      | r :: rs =>
        if r = '(' then
          match findCloseParen rs with
          | some g => some g
          | none => matchInner rest
        else matchInner rest
      | [] => none
    else if c = '\n' then none
    else matchInner rest

/-- `re.search`: try the pattern at every `'['` from the left, returning the
capture group of the leftmost successful start position. -/
def searchFrom : List Char → Option (List Char)
  | [] => none
  | c :: rest =>
    if c = '[' then
      match matchInner rest with
      | some g => some g
      | none => searchFrom rest
    else searchFrom rest

/-- `match = re.search(r"\[.*?\]\((.*?)\)", text)`;
`match.group(1) if match else None`. -/
def re_search_group1 (text : String) : Option String :=
  (searchFrom text.data).map (fun g => String.mk g)

/-! ## `xfpm_c.py` -/

/-- `extracted_address = match.group(1) if match else None`
(`xfpm_c.py`, lines 112–114). -/
def extracted_address (text : String) : Option String :=
  re_search_group1 text

/-- `fpm_link = extracted_address + "/blob/master/fpm.toml"`
(`xfpm_c.py`, line 119). -/
def fpm_link (extracted : String) : String :=
  extracted ++ "/blob/master/fpm.toml"

/-- `requests.head(url, allow_redirects=True, timeout=5)`: a single request,
i.e. the outcome of the server's first attempt.  The retry-configured
`session` built in `check_url_exists` is *not* consulted: the source calls
module-level `requests.head`, not `session.head`. -/
def requests_head (server : Nat → Except String Nat) : Except String Nat :=
  server 0

/-- `check_url_exists` (`xfpm_c.py`, lines 63–83), with the mounted-but-unused
retry session elided to its (absent) effect: classify the outcome of the
single `requests.head` call.  `(True, code)` for a status in `range(200, 300)`,
`(False, code)` otherwise, `(False, str(e))` when the request raises. -/
def check_url_exists (server : Nat → Except String Nat) : Bool × (Nat ⊕ String) :=
  match requests_head server with
  | Except.ok code =>
    if 200 ≤ code ∧ code < 300 then (true, Sum.inl code) else (false, Sum.inl code)
  | Except.error e => (false, Sum.inr e)

/-- The `Retry` policy built (and mounted on the unused session) in
`check_url_exists`: `Retry(total=5, backoff_factor=1.1,
status_forcelist=[500, 502, 503, 504])`.  The backoff factor is kept as
tenths to stay in `Nat`. -/
structure RetryPolicy where
  total : Nat
  backoff_factor_tenths : Nat
  status_forcelist : List Nat

/-- The concrete policy of `xfpm_c.py`, line 67–69. -/
def session_retry_policy : RetryPolicy :=
  { total := 5, backoff_factor_tenths := 11, status_forcelist := [500, 502, 503, 504] }

/-- Behaviour of urllib3's `Retry` on a mounted adapter *had the session been
used*: re-issue the request while the status is in the forcelist and retries
remain.  `fuel` is the number of retries still allowed after the current
attempt; attempt `i` asks the server oracle at index `i`. -/
def retryOnForcelist (fuel : Nat) (forcelist : List Nat)
    (server : Nat → Except String Nat) (i : Nat) : Except String Nat :=
  match fuel with
  | 0 => server i
  | f + 1 =>
    match server i with
    | Except.ok c =>
      if c ∈ forcelist then retryOnForcelist f forcelist server (i + 1)
      else Except.ok c
    | Except.error e => Except.error e

/-- What `check_url_exists` would return had it issued the request through the
session it mounts the retry policy on (`session.head` instead of
`requests.head`). -/
def check_url_exists_with_session_retries (server : Nat → Except String Nat) :
    Bool × (Nat ⊕ String) :=
  match retryOnForcelist session_retry_policy.total session_retry_policy.status_forcelist
      server 0 with
  | Except.ok code =>
    if 200 ≤ code ∧ code < 300 then (true, Sum.inl code) else (false, Sum.inl code)
  | Except.error e => (false, Sum.inr e)

/-- `a.startswith(b)` on character lists. -/
def isLeadingOf : List Char → List Char → Bool
  | [], _ => true
  | _ :: _, [] => false
  | p :: ps, c :: cs => p = c && isLeadingOf ps cs

/-- Python's `s.startswith(pre)`. -/
def startswith (s pre : String) : Bool :=
  isLeadingOf pre.data s.data

/-- `str.strip()` on the character list: drop leading and trailing whitespace
(ASCII fragment of Python's notion). -/
def isPySpace (c : Char) : Bool :=
  c = ' ' || c = '\t' || c = '\n' || c = '\r' || c = '\x0b' || c = '\x0c'

/-- `strip` on the character list: drop leading whitespace, then drop
trailing whitespace (by reversing, dropping, reversing back). -/
def stripChars (l : List Char) : List Char :=
  ((l.dropWhile isPySpace).reverse.dropWhile isPySpace).reverse

/-- `line.strip()` (ASCII whitespace fragment). -/
def pyStrip (s : String) : String :=
  String.mk (stripChars s.data)

/-- `file_reader` (`xfpm_c.py`, lines 86–106): strip every line, truncate to
300 lines in a test run.  The `debug` branch only prints diagnostics and does
not affect the returned data, so it is elided. -/
def file_reader (infile : List String) (test : Bool) : List String :=
  let raw_data := infile.map pyStrip
  if test then raw_data.take 300 else raw_data

/-- `checker` (`xfpm_c.py`, lines 109–130): extract the address; `None` and
`""` are both falsy, so only a non-empty extracted address is probed, at URL
`fpm_link`; on a reachable manifest return `text + "\n"`, otherwise (no or
empty address, or probe failure) fall through to `None`.  The
`UnicodeEncodeError` handler cannot fire in the model (every Lean string
renders), and `debug` printing is elided. -/
def checker (www : String → Nat → Except String Nat) (text : String) : Option String :=
  match extracted_address text with
  | none => none
  | some addr =>
    if addr = "" then none
    else if (check_url_exists (www (fpm_link addr))).1 then some (text ++ "\n")
    else none

/-- The URLs `checker` passes to `check_url_exists` for a given line: one
probe at `fpm_link addr` when a non-empty address is extracted, none
otherwise. -/
def checkerProbes (text : String) : List String :=
  match extracted_address text with
  | none => []
  | some addr => if addr = "" then [] else [fpm_link addr]

/-! ## The section aggregator `triage_lines` (`xfpm_c.py`, lines 133–186) -/

/-- The mutable state of the loop: `previous_section_title` and
`intermediate_register`. -/
structure TriageState where
  prevTitle : String
  register : List String

/-- `line.startswith("##") and not line.startswith("## Fortran code on GitHub")`:
the guard of the flushing header branch (lines 151–152). -/
def isFlushHeader (line : String) : Bool :=
  startswith line "##" && !(startswith line "## Fortran code on GitHub")

/-- Lines 140–143: echo the document title line and top-level `* [` list items
immediately (`print("".join([line, "\n"]))`). -/
def echoes (line : String) : List String :=
  (if startswith line "## Fortran code on GitHub" then [line ++ "\n"] else []) ++
    (if startswith line "* [" then [line ++ "\n"] else [])

/-- Lines 147–148: append a `[`-line to `intermediate_register`. -/
def candAppend (line : String) (reg : List String) : List String :=
  if startswith line "[" then reg ++ [line] else reg

/-- `str.casefold` (ASCII fragment: per-character lowercasing). -/
def casefold (s : String) : String := String.mk (s.data.map Char.toLower)

/-- Python's lexicographic `<` on strings, by code point, on character
lists. -/
def charListLt : List Char → List Char → Bool
  | [], [] => false
  | [], _ :: _ => true
  | _ :: _, [] => false
  | a :: as, b :: bs => if a < b then true else if b < a then false else charListLt as bs

/-- The comparison `sorted(..., key=str.casefold)` sorts by: key of `a` not
greater than key of `b`. -/
def casefold_le (a b : String) : Bool :=
  !(charListLt (casefold b).data (casefold a).data)

/-- Stable insertion into a sorted list: place `x` before the first element
whose key is not smaller, so earlier-buffered entries stay in front of
equal-key later ones, as Python's stable `sorted` does. -/
def sorted_insert (x : String) : List String → List String
  | [] => [x]
  | y :: ys => if casefold_le x y then x :: y :: ys else y :: sorted_insert x ys

/-- `sorted(entries, key=str.casefold)`: a stable sort by the casefolded line
text.  Any stable sorting algorithm computes the same list, so a stable
insertion sort models Python's Timsort. -/
def sorted_casefold : List String → List String
  | [] => []
  | x :: xs => sorted_insert x (sorted_casefold xs)

/-- Lines 153–168, output of a header-triggered flush: nothing unless the
register is non-empty and at least one entry passes `checker`; otherwise the
buffered section title then the passing entries sorted by `str.casefold`. -/
def header_flush_printed (www : String → Nat → Except String Nat)
    (title : String) (reg : List String) : List String :=
  if reg.isEmpty then []
  else
    let affirmative_tests := reg.filterMap (checker www)
    if affirmative_tests.isEmpty then []
    else (title ++ "\n") :: sorted_casefold affirmative_tests

/-- The `(line index, entry)` pairs on which a header-triggered flush invokes
`checker` (lines 159–160): every register entry, in buffer order, but only
when the register is non-empty (the flush is guarded by
`if intermediate_register:`). -/
def header_flush_checks (i : Nat) (reg : List String) : List (Nat × String) :=
  if reg.isEmpty then [] else reg.map (fun e => (i, e))

/-- The URLs a header-triggered flush probes, in order. -/
def header_flush_probes (reg : List String) : List String :=
  if reg.isEmpty then [] else reg.flatMap checkerProbes

/-- Lines 174–186, output of the end-of-stream flush: like the header flush
but with no emptiness guard and — as written in the source — *without* the
`sorted` call: entries are printed in buffer order. -/
def eos_flush_printed (www : String → Nat → Except String Nat)
    (title : String) (reg : List String) : List String :=
  let affirmative_tests := reg.filterMap (checker www)
  if affirmative_tests.isEmpty then []
  else (title ++ "\n") :: affirmative_tests

/-- The `(line index, entry)` pairs on which the end-of-stream flush invokes
`checker` (lines 179–180). -/
def eos_flush_checks (i : Nat) (reg : List String) : List (Nat × String) :=
  reg.map (fun e => (i, e))

/-- The URLs the end-of-stream flush probes, in order. -/
def eos_flush_probes (reg : List String) : List String :=
  reg.flatMap checkerProbes

/-- Everything one loop iteration produces: the strings printed, the
`(line index, entry)` pairs handed to `checker`, and the URLs handed to
`check_url_exists`. -/
structure StepOut where
  printed : List String
  checks : List (Nat × String)
  probes : List String

/-- One iteration of the `for i, line in enumerate(raw_data)` loop of
`triage_lines`, in the branch order of the source: echo branches (140–143),
register append (147–148), header-triggered flush and title update (151–170),
then — when `i == len(raw_data) - 1` — the end-of-stream flush (174–186),
which uses the register and title as updated earlier in the same iteration. -/
def lineStep (www : String → Nat → Except String Nat) (i : Nat) (line : String)
    (isLast : Bool) (st : TriageState) : StepOut × TriageState :=
  let reg1 := candAppend line st.register
  let hdr := isFlushHeader line
  let fPrinted := if hdr then header_flush_printed www st.prevTitle reg1 else []
  let fChecks := if hdr then header_flush_checks i reg1 else []
  let fProbes := if hdr then header_flush_probes reg1 else []
  let reg2 := if hdr then [] else reg1
  let title2 := if hdr then line else st.prevTitle
  let ePrinted := if isLast then eos_flush_printed www title2 reg2 else []
  let eChecks := if isLast then eos_flush_checks i reg2 else []
  let eProbes := if isLast then eos_flush_probes reg2 else []
  (⟨echoes line ++ fPrinted ++ ePrinted, fChecks ++ eChecks, fProbes ++ eProbes⟩,
    ⟨title2, reg2⟩)

/-- The loop of `triage_lines`, carrying the line index and the state. -/
def triageGo (www : String → Nat → Except String Nat) :
    Nat → List String → TriageState → StepOut
  | _, [], _ => ⟨[], [], []⟩
  | i, line :: rest, st =>
    let r := lineStep www i line rest.isEmpty st
    let r2 := triageGo www (i + 1) rest r.2
    ⟨r.1.printed ++ r2.printed, r.1.checks ++ r2.checks, r.1.probes ++ r2.probes⟩

/-- `triage_lines(raw_data)` (`xfpm_c.py`, lines 133–186): run the loop from
the initial state `previous_section_title = ""`, `intermediate_register = []`.
`debug` printing is elided. -/
def triage_lines (www : String → Nat → Except String Nat)
    (raw_data : List String) : StepOut :=
  triageGo www 0 raw_data ⟨"", []⟩

/-- The character list `cs` decomposes as a `[label](locator)` occurrence of
the pattern `\[.*?\]\((.*?)\)` with capture `loc`: some prefix, then `[`, a
newline-free label, `](`, a locator free of `)` and newlines, then `)` and
arbitrary trailing text. -/
def Decomp (cs pre lbl loc post : List Char) : Prop :=
  cs = pre ++ '[' :: (lbl ++ ']' :: '(' :: (loc ++ ')' :: post)) ∧
    '\n' ∉ lbl ∧ '\n' ∉ loc ∧ ')' ∉ loc

/-- Position `i` is the moment the section a candidate at position `j`
belongs to closes: `i` is in range, no flushing header lies strictly between
`j` and `i`, and line `i` is itself a flushing header (the next one after
`j`) or the last line of the stream. -/
def closesAt (lines : List String) (j i : Nat) : Prop :=
  j ≤ i ∧ i < lines.length ∧
    (∀ k s, j < k → k < i → lines.get? k = some s → isFlushHeader s = false) ∧
    ((∃ s, lines.get? i = some s ∧ isFlushHeader s = true) ∨ i + 1 = lines.length)

/-- The check event `p = (i, e)` resolves a candidate line `e` of the stream
exactly at the moment its section closes. -/
def resolvedAtClose (lines : List String) (p : Nat × String) : Prop :=
  ∃ j, lines.get? j = some p.2 ∧ startswith p.2 "[" = true ∧ closesAt lines j p.1

/-! ## `xfpm.py` (earlier iteration): the extraction part of its `checker` -/

namespace Xfpm

/-- `extracted_address = match.group(1) if match else None`
(`xfpm.py`, lines 92–94): same pattern, same library call. -/
def extracted_address (text : String) : Option String :=
  re_search_group1 text

/-- `fpm_link = extracted_address + "/blob/master/fpm.toml"`
(`xfpm.py`, line 100). -/
def fpm_link (extracted : String) : String :=
  extracted ++ "/blob/master/fpm.toml"

end Xfpm

/-! ## Claims -/

/-- **C1.** The claim says `check_url_exists` retries transient server errors
(500/502/503/504) with backoff before failing.  The source configures such a
`Retry` policy on a `Session`, but issues the request with module-level
`requests.head`, which bypasses that session: no retry ever happens.  The
first conjunct shows the half of the claim that does hold — a probe answered
503 on every attempt ends as the ordinary failure result `(False, 503)`, not
an unhandled fault.  The second and third conjuncts exhibit the divergence: a
server answering 503 once and then 200 still yields `(False, 503)` from the
code, while a request issued through the mounted retry policy would have
returned `(True, 200)`. -/
theorem check_url_exists_never_retries :
    check_url_exists (fun _ => Except.ok 503) = (false, Sum.inl 503) ∧
      check_url_exists (fun n => if n = 0 then Except.ok 503 else Except.ok 200) =
        (false, Sum.inl 503) ∧
      check_url_exists_with_session_retries
          (fun n => if n = 0 then Except.ok 503 else Except.ok 200) =
        (true, Sum.inl 200) :=
  ⟨rfl, rfl, rfl⟩

/-- **C2.** The claim says both flush kinds emit entries sorted
case-insensitively.  Header-triggered flushes do (third conjunct), but the
end-of-stream flush omits the `sorted` call: on a document ending mid-section
with reachable entries `[beta]…` then `[Alpha]…`, the code prints them in
buffer order (first conjunct), while the case-insensitive stable sort of the
same entries puts `[Alpha]…` first (second conjunct). -/
theorem eos_flush_not_sorted :
    (triage_lines (fun _ _ => Except.ok 200)
        ["## Astronomy", "[beta](https://x/b)", "[Alpha](https://x/a)"]).printed =
      ["## Astronomy\n", "[beta](https://x/b)\n", "[Alpha](https://x/a)\n"] ∧
      sorted_casefold ["[beta](https://x/b)\n", "[Alpha](https://x/a)\n"] =
        ["[Alpha](https://x/a)\n", "[beta](https://x/b)\n"] ∧
      (triage_lines (fun _ _ => Except.ok 200)
          ["## Astronomy", "[beta](https://x/b)", "[Alpha](https://x/a)",
            "## Biology"]).printed =
        ["## Astronomy\n", "[Alpha](https://x/a)\n", "[beta](https://x/b)\n"] :=
  ⟨rfl, rfl, rfl⟩

/-- **C6.** `check_url_exists` reports `reachable = True` with the numeric
status exactly when the response status lies in the inclusive range
[200, 299]; any response status is reported numerically, and a raised
`RequestException` is caught and reported as `(False, error text)` instead of
propagating. -/
theorem check_url_exists_classification (server : Nat → Except String Nat) :
    ((check_url_exists server).1 = true ↔
        ∃ c, server 0 = Except.ok c ∧ 200 ≤ c ∧ c ≤ 299) ∧
      (∀ c, server 0 = Except.ok c → (check_url_exists server).2 = Sum.inl c) ∧
      (∀ e, server 0 = Except.error e → check_url_exists server = (false, Sum.inr e)) := by
  refine ⟨⟨?_, ?_⟩, ?_, ?_⟩
  · intro h
    unfold check_url_exists requests_head at h
    cases hs : server 0 with
    | ok c =>
      rw [hs] at h
      by_cases hc : 200 ≤ c ∧ c < 300
      · exact ⟨c, rfl, hc.1, by omega⟩
      · simp [hc] at h
    | error e => simp [hs] at h
  · rintro ⟨c, hc, h1, h2⟩
    unfold check_url_exists requests_head
    rw [hc]
    simp [show 200 ≤ c ∧ c < 300 from ⟨h1, by omega⟩]
  · intro c hc
    unfold check_url_exists requests_head
    rw [hc]
    by_cases h : 200 ≤ c ∧ c < 300 <;> simp [h]
  · intro e he
    unfold check_url_exists requests_head
    rw [he]

/-- Witness for C6 at concrete servers: a 200 response is reachable, a 503
response reports its status, an exception reports its text. -/
theorem check_url_exists_classification_witness :
    (check_url_exists (fun _ => Except.ok 503)).2 = Sum.inl 503 ∧
      check_url_exists (fun _ => Except.error "timeout") = (false, Sum.inr "timeout") :=
  ⟨(check_url_exists_classification (fun _ => Except.ok 503)).2.1 503 rfl,
    (check_url_exists_classification (fun _ => Except.error "timeout")).2.2 "timeout" rfl⟩

/-- Unfolding of a one-character step of the `startswith` test. -/
theorem isLeadingOf_cons_iff (p : Char) (ps cs : List Char) :
    isLeadingOf (p :: ps) cs = true ↔ ∃ tl, cs = p :: tl ∧ isLeadingOf ps tl = true := by
  cases cs with
  | nil => simp [isLeadingOf]
  | cons c tl =>
    simp only [isLeadingOf, Bool.and_eq_true, decide_eq_true_eq, List.cons.injEq]
    constructor
    · rintro ⟨h1, h2⟩
      exact ⟨tl, ⟨h1.symm, rfl⟩, h2⟩
    · rintro ⟨tl', ⟨h1, h2⟩, h3⟩
      exact ⟨h1.symm, h2 ▸ h3⟩

/-- A line beginning with `##` begins with neither `* [` nor `[`. -/
theorem hash_line_not_star_not_bracket (line : String)
    (h : startswith line "##" = true) :
    startswith line "* [" = false ∧ startswith line "[" = false := by
  unfold startswith at *
  rw [show ("##" : String).data = ['#', '#'] from rfl, isLeadingOf_cons_iff] at h
  obtain ⟨tl, hd, _⟩ := h
  rw [show ("* [" : String).data = ['*', ' ', '['] from rfl,
    show ("[" : String).data = ['['] from rfl, hd]
  constructor <;> simp [isLeadingOf]

/-- Shape facts about a flushing header line: it is not the document title,
not a top-level list item, and not a candidate line. -/
theorem flushHeader_shape (line : String) (h : isFlushHeader line = true) :
    startswith line "## Fortran code on GitHub" = false ∧
      startswith line "* [" = false ∧ startswith line "[" = false := by
  unfold isFlushHeader at h
  rw [Bool.and_eq_true, Bool.not_eq_true'] at h
  exact ⟨h.2, (hash_line_not_star_not_bracket line h.1).1,
    (hash_line_not_star_not_bracket line h.1).2⟩

/-- Shape facts about a top-level `* [` list item: it is not a candidate
line, not a header of either kind. -/
theorem star_item_shape (line : String) (h : startswith line "* [" = true) :
    startswith line "[" = false ∧ startswith line "##" = false ∧
      startswith line "## Fortran code on GitHub" = false := by
  unfold startswith at *
  rw [show ("* [" : String).data = ['*', ' ', '['] from rfl, isLeadingOf_cons_iff] at h
  obtain ⟨tl, hd, _⟩ := h
  rw [show ("[" : String).data = ['['] from rfl,
    show ("##" : String).data = ['#', '#'] from rfl, hd]
  refine ⟨by simp [isLeadingOf], by simp [isLeadingOf], ?_⟩
  have heq : ("## Fortran code on GitHub" : String).data =
      '#' :: ("# Fortran code on GitHub" : String).data := rfl
  rw [heq]
  simp [isLeadingOf]

/-- **C4.** A section whose every buffered candidate fails its probe emits
nothing: both flush procedures print the empty list (first two conjuncts),
and the whole loop iteration that closes such a section on a new header
prints nothing at all — in particular not the section's header line (third
conjunct, which also covers the closing iteration being the last line of the
stream). -/
theorem failed_section_not_emitted (www : String → Nat → Except String Nat)
    (title : String) (reg : List String)
    (hfail : reg.filterMap (checker www) = []) :
    header_flush_printed www title reg = [] ∧
      eos_flush_printed www title reg = [] ∧
      ∀ (i : Nat) (isLast : Bool) (st : TriageState), st.register = reg →
        ∀ line, isFlushHeader line = true →
          (lineStep www i line isLast st).1.printed = [] := by
  refine ⟨?_, ?_, ?_⟩
  · unfold header_flush_printed
    by_cases hr : reg.isEmpty <;> simp [hr, hfail]
  · unfold eos_flush_printed
    simp [hfail]
  · intro i isLast st hreg line hline
    obtain ⟨h1, h2, h3⟩ := flushHeader_shape line hline
    unfold lineStep
    have hreg1 : candAppend line st.register = reg := by
      unfold candAppend
      rw [h3, hreg]
      simp
    rw [hline, hreg1]
    unfold echoes
    rw [h1, h2]
    simp only [if_true, if_false, ite_true, ite_false, List.nil_append]
    rw [show header_flush_printed www st.prevTitle reg = [] from by
      unfold header_flush_printed
      by_cases hr : reg.isEmpty <;> simp [hr, hfail]]
    cases isLast <;> simp [eos_flush_printed]

/-- Witness for C4: with every probe answering 404, a buffered candidate
section prints nothing from either flush, and the closing iteration on
`## Biology` prints nothing. -/
theorem failed_section_not_emitted_witness :
    header_flush_printed (fun _ _ => Except.ok 404) "## Astronomy" ["[a](https://x/a)"] = [] ∧
      eos_flush_printed (fun _ _ => Except.ok 404) "## Astronomy" ["[a](https://x/a)"] = [] ∧
      (lineStep (fun _ _ => Except.ok 404) 2 "## Biology" false
          ⟨"## Astronomy", ["[a](https://x/a)"]⟩).1.printed = [] :=
  ⟨(failed_section_not_emitted (fun _ _ => Except.ok 404) "## Astronomy"
      ["[a](https://x/a)"] rfl).1,
    (failed_section_not_emitted (fun _ _ => Except.ok 404) "## Astronomy"
      ["[a](https://x/a)"] rfl).2.1,
    (failed_section_not_emitted (fun _ _ => Except.ok 404) "## Astronomy"
      ["[a](https://x/a)"] rfl).2.2 2 false ⟨"## Astronomy", ["[a](https://x/a)"]⟩
      rfl "## Biology" rfl⟩

/-- **C8.** A loop iteration on a line beginning `* [` echoes that line first
and unconditionally — for every probe oracle, every position, and every
state — and leaves the section buffer untouched (such a line does not begin
with `[`, so it is never appended to the register; only `[`-lines are). -/
theorem star_item_echoed_not_buffered (www : String → Nat → Except String Nat)
    (i : Nat) (line : String) (isLast : Bool) (st : TriageState)
    (h : startswith line "* [" = true) :
    (∃ rest, (lineStep www i line isLast st).1.printed = (line ++ "\n") :: rest) ∧
      (lineStep www i line isLast st).2.register = st.register := by
  obtain ⟨h1, h2, h3⟩ := star_item_shape line h
  have hhdr : isFlushHeader line = false := by
    unfold isFlushHeader
    rw [h2]
    rfl
  have hreg1 : candAppend line st.register = st.register := by
    unfold candAppend
    rw [h1]
    simp
  unfold lineStep
  rw [hhdr, hreg1]
  unfold echoes
  rw [h, h3]
  simp

/-- Witness for C8 at a concrete top-level list item, state and oracle. -/
theorem star_item_echoed_not_buffered_witness :
    (∃ rest,
        (lineStep (fun _ _ => Except.ok 200) 0 "* [Directory Title](url)" false
            ⟨"", []⟩).1.printed = ("* [Directory Title](url)" ++ "\n") :: rest) ∧
      (lineStep (fun _ _ => Except.ok 200) 0 "* [Directory Title](url)" false
          ⟨"", []⟩).2.register = ([] : List String) :=
  star_item_echoed_not_buffered (fun _ _ => Except.ok 200) 0
    "* [Directory Title](url)" false ⟨"", []⟩ rfl

/-- The loop on the empty stream produces nothing. -/
theorem triageGo_nil (www : String → Nat → Except String Nat) (i : Nat)
    (st : TriageState) : triageGo www i [] st = ⟨[], [], []⟩ := rfl

/-- Unfolding one loop iteration. -/
theorem triageGo_cons (www : String → Nat → Except String Nat) (i : Nat)
    (line : String) (rest : List String) (st : TriageState) :
    triageGo www i (line :: rest) st =
      ⟨(lineStep www i line rest.isEmpty st).1.printed ++
          (triageGo www (i + 1) rest (lineStep www i line rest.isEmpty st).2).printed,
        (lineStep www i line rest.isEmpty st).1.checks ++
          (triageGo www (i + 1) rest (lineStep www i line rest.isEmpty st).2).checks,
        (lineStep www i line rest.isEmpty st).1.probes ++
          (triageGo www (i + 1) rest (lineStep www i line rest.isEmpty st).2).probes⟩ := rfl

/-- The checks of one iteration, explicitly. -/
theorem lineStep_checks (www : String → Nat → Except String Nat) (i : Nat)
    (line : String) (isLast : Bool) (st : TriageState) :
    (lineStep www i line isLast st).1.checks =
      (if isFlushHeader line then header_flush_checks i (candAppend line st.register)
        else []) ++
        (if isLast then
          eos_flush_checks i
            (if isFlushHeader line then [] else candAppend line st.register)
          else []) := rfl

/-- The probes of one iteration, explicitly. -/
theorem lineStep_probes (www : String → Nat → Except String Nat) (i : Nat)
    (line : String) (isLast : Bool) (st : TriageState) :
    (lineStep www i line isLast st).1.probes =
      (if isFlushHeader line then header_flush_probes (candAppend line st.register)
        else []) ++
        (if isLast then
          eos_flush_probes
            (if isFlushHeader line then [] else candAppend line st.register)
          else []) := rfl

/-- The state after one iteration, explicitly. -/
theorem lineStep_state (www : String → Nat → Except String Nat) (i : Nat)
    (line : String) (isLast : Bool) (st : TriageState) :
    (lineStep www i line isLast st).2 =
      ⟨if isFlushHeader line then line else st.prevTitle,
        if isFlushHeader line then [] else candAppend line st.register⟩ := rfl

/-- The checks of a non-final iteration. -/
theorem lineStep_checks_mid (www : String → Nat → Except String Nat) (i : Nat)
    (line : String) (st : TriageState) :
    (lineStep www i line false st).1.checks =
      (if isFlushHeader line then header_flush_checks i (candAppend line st.register)
        else []) := by
  rw [lineStep_checks]
  simp

/-- The checks of the final iteration. -/
theorem lineStep_checks_last (www : String → Nat → Except String Nat) (i : Nat)
    (line : String) (st : TriageState) :
    (lineStep www i line true st).1.checks =
      (if isFlushHeader line then header_flush_checks i (candAppend line st.register)
        else []) ++
        eos_flush_checks i
          (if isFlushHeader line then [] else candAppend line st.register) := by
  rw [lineStep_checks]
  simp

/-- The probes of a non-final iteration. -/
theorem lineStep_probes_mid (www : String → Nat → Except String Nat) (i : Nat)
    (line : String) (st : TriageState) :
    (lineStep www i line false st).1.probes =
      (if isFlushHeader line then header_flush_probes (candAppend line st.register)
        else []) := by
  rw [lineStep_probes]
  simp

/-- The probes of the final iteration. -/
theorem lineStep_probes_last (www : String → Nat → Except String Nat) (i : Nat)
    (line : String) (st : TriageState) :
    (lineStep www i line true st).1.probes =
      (if isFlushHeader line then header_flush_probes (candAppend line st.register)
        else []) ++
        eos_flush_probes
          (if isFlushHeader line then [] else candAppend line st.register) := by
  rw [lineStep_probes]
  simp

/-- A header-triggered flush checks exactly its register, in order. -/
theorem header_flush_checks_map_snd (i : Nat) (reg : List String) :
    (header_flush_checks i reg).map Prod.snd = reg := by
  unfold header_flush_checks
  by_cases h : reg.isEmpty
  · rw [List.isEmpty_iff] at h
    simp [h]
  · simp [h]

/-- The end-of-stream flush checks exactly its register, in order. -/
theorem eos_flush_checks_map_snd (i : Nat) (reg : List String) :
    (eos_flush_checks i reg).map Prod.snd = reg := by
  unfold eos_flush_checks
  simp

/-- Appending a line to the register, rephrased through `List.filter`. -/
theorem candAppend_eq_append_filter (line : String) (reg : List String) :
    candAppend line reg = reg ++ List.filter (fun l => startswith l "[") [line] := by
  unfold candAppend
  by_cases h : startswith line "[" <;> simp [h, List.filter]

/-- Over a non-empty rest of the stream, the lines handed to `checker` are
exactly the current register followed by the `[`-lines of the rest, in
order: every buffered candidate is resolved exactly once and none is
resolved twice or skipped. -/
theorem triageGo_checks_entries (www : String → Nat → Except String Nat) :
    ∀ (suffix : List String) (i : Nat) (st : TriageState), suffix ≠ [] →
      ((triageGo www i suffix st).checks).map Prod.snd =
        st.register ++ suffix.filter (fun l => startswith l "[") := by
  intro suffix
  induction suffix with
  | nil => intro i st h; exact absurd rfl h
  | cons line rest ih =>
    intro i st _
    rw [triageGo_cons]
    by_cases hrest : rest = []
    · subst hrest
      rw [triageGo_nil]
      show List.map Prod.snd ((lineStep www i line true st).1.checks ++ []) = _
      rw [List.append_nil, lineStep_checks_last, List.map_append]
      by_cases hdr : isFlushHeader line
      · rw [if_pos hdr, if_pos hdr, header_flush_checks_map_snd,
          eos_flush_checks_map_snd, List.append_nil, candAppend_eq_append_filter]
      · rw [if_neg hdr, if_neg hdr, eos_flush_checks_map_snd,
          candAppend_eq_append_filter]
        simp
    · have hre : rest.isEmpty = false := by
        cases rest with
        | nil => exact absurd rfl hrest
        | cons a t => rfl
      rw [hre]
      show List.map Prod.snd ((lineStep www i line false st).1.checks ++
        (triageGo www (i + 1) rest (lineStep www i line false st).2).checks) = _
      rw [List.map_append, lineStep_checks_mid, lineStep_state,
        ih (i + 1) ⟨if isFlushHeader line then line else st.prevTitle,
          if isFlushHeader line then [] else candAppend line st.register⟩ hrest]
      show _ = st.register ++ List.filter (fun l => startswith l "[") (line :: rest)
      by_cases hdr : isFlushHeader line
      · rw [if_pos hdr, if_pos hdr, if_pos hdr, header_flush_checks_map_snd,
          candAppend_eq_append_filter, List.filter_cons]
        have hline : startswith line "[" = false := (flushHeader_shape line hdr).2.2
        simp [hline, List.filter]
      · rw [if_neg hdr, if_neg hdr, if_neg hdr, candAppend_eq_append_filter,
          List.filter_cons]
        by_cases hc : startswith line "[" <;> simp [hc, List.filter]

/-- A header-triggered flush probes one URL per register entry via
`checkerProbes`. -/
theorem header_flush_probes_eq (reg : List String) :
    header_flush_probes reg = reg.flatMap checkerProbes := by
  unfold header_flush_probes
  by_cases h : reg.isEmpty
  · rw [List.isEmpty_iff] at h
    simp [h]
  · simp [h]

/-- Every probe of the whole run is a probe of some checked entry: the probe
trace is the check trace mapped through `checkerProbes`. -/
theorem triageGo_probes_eq (www : String → Nat → Except String Nat) :
    ∀ (suffix : List String) (i : Nat) (st : TriageState),
      (triageGo www i suffix st).probes =
        ((triageGo www i suffix st).checks.map Prod.snd).flatMap checkerProbes := by
  intro suffix
  induction suffix with
  | nil => intro i st; rfl
  | cons line rest ih =>
    intro i st
    rw [triageGo_cons]
    show (lineStep www i line rest.isEmpty st).1.probes ++
        (triageGo www (i + 1) rest (lineStep www i line rest.isEmpty st).2).probes = _
    rw [List.map_append, List.flatMap_append, ih]
    have hstep : (lineStep www i line rest.isEmpty st).1.probes =
        ((lineStep www i line rest.isEmpty st).1.checks.map Prod.snd).flatMap
          checkerProbes := by
      cases hlast : rest.isEmpty
      · rw [lineStep_probes_mid, lineStep_checks_mid]
        by_cases hdr : isFlushHeader line <;>
          simp [hdr, header_flush_probes_eq, header_flush_checks_map_snd]
      · rw [lineStep_probes_last, lineStep_checks_last, List.map_append,
          List.flatMap_append, eos_flush_checks_map_snd]
        by_cases hdr : isFlushHeader line <;>
          simp [hdr, header_flush_probes_eq, header_flush_checks_map_snd,
            eos_flush_probes]
    rw [hstep]

/-- **C7.** Every URL the program hands to `check_url_exists` is the
extracted address of some buffered candidate line with the fixed suffix
`/blob/master/fpm.toml` appended; and conversely, a candidate whose
extracted address is non-empty is probed at exactly that one URL. -/
theorem probes_are_address_plus_suffix (www : String → Nat → Except String Nat)
    (lines : List String) :
    (∀ text addr, extracted_address text = some addr → addr ≠ "" →
        checkerProbes text = [addr ++ "/blob/master/fpm.toml"]) ∧
      ∀ url ∈ (triage_lines www lines).probes,
        ∃ e addr, e ∈ lines ∧ startswith e "[" = true ∧
          extracted_address e = some addr ∧
          url = addr ++ "/blob/master/fpm.toml" := by
  constructor
  · intro text addr h hne
    have hcp : checkerProbes text = if addr = "" then [] else [fpm_link addr] := by
      unfold checkerProbes
      rw [h]
    rw [hcp, if_neg hne]
    rfl
  · intro url hurl
    unfold triage_lines at hurl
    rw [triageGo_probes_eq] at hurl
    cases hlines : lines with
    | nil =>
      rw [hlines, triageGo_nil] at hurl
      simp at hurl
    | cons l0 ls =>
      rw [hlines, triageGo_checks_entries www (l0 :: ls) 0 ⟨"", []⟩ (by simp)] at hurl
      rw [List.nil_append] at hurl
      rw [List.mem_flatMap] at hurl
      obtain ⟨e, he, hurl⟩ := hurl
      rw [List.mem_filter] at he
      refine ⟨e, ?_⟩
      cases hext : extracted_address e with
      | none =>
        have hcp : checkerProbes e = [] := by
          unfold checkerProbes
          rw [hext]
        rw [hcp] at hurl
        simp at hurl
      | some addr =>
        have hcp : checkerProbes e = if addr = "" then [] else [fpm_link addr] := by
          unfold checkerProbes
          rw [hext]
        rw [hcp] at hurl
        by_cases haddr : addr = ""
        · rw [if_pos haddr] at hurl
          simp at hurl
        · rw [if_neg haddr, List.mem_singleton] at hurl
          exact ⟨addr, hlines ▸ he.1, he.2, rfl, hurl⟩

/-- Witness for C7: the single candidate `[a](https://x/a)` is probed at
exactly its address plus the fixed suffix, both at the `checker` level and
over a whole run. -/
theorem probes_are_address_plus_suffix_witness :
    checkerProbes "[a](https://x/a)" = ["https://x/a" ++ "/blob/master/fpm.toml"] ∧
      ∃ e addr, e ∈ ["[a](https://x/a)"] ∧ startswith e "[" = true ∧
        extracted_address e = some addr ∧
        "https://x/a/blob/master/fpm.toml" = addr ++ "/blob/master/fpm.toml" :=
  ⟨(probes_are_address_plus_suffix (fun _ _ => Except.ok 200) []).1
      "[a](https://x/a)" "https://x/a" rfl (by decide),
    (probes_are_address_plus_suffix (fun _ _ => Except.ok 200)
        ["[a](https://x/a)"]).2 "https://x/a/blob/master/fpm.toml"
      (by rw [show (triage_lines (fun _ _ => Except.ok 200)
          ["[a](https://x/a)"]).probes =
            ["https://x/a/blob/master/fpm.toml"] from rfl]
          exact List.mem_singleton.mpr rfl)⟩

/-- A check event of a header-triggered flush carries the flush's line index
and an entry of its register. -/
theorem mem_header_flush_checks {i : Nat} {reg : List String} {p : Nat × String}
    (h : p ∈ header_flush_checks i reg) : p.1 = i ∧ p.2 ∈ reg := by
  unfold header_flush_checks at h
  by_cases hr : reg.isEmpty
  · rw [if_pos hr] at h
    cases h
  · rw [if_neg hr, List.mem_map] at h
    obtain ⟨e, he, hpe⟩ := h
    subst hpe
    exact ⟨rfl, he⟩

/-- A check event of the end-of-stream flush carries its line index and an
entry of its register. -/
theorem mem_eos_flush_checks {i : Nat} {reg : List String} {p : Nat × String}
    (h : p ∈ eos_flush_checks i reg) : p.1 = i ∧ p.2 ∈ reg := by
  unfold eos_flush_checks at h
  rw [List.mem_map] at h
  obtain ⟨e, he, hpe⟩ := h
  subst hpe
  exact ⟨rfl, he⟩

/-- Timing invariant of the loop: if every register entry is a `[`-line of
the already-consumed prefix with no flushing header after it, then every
check event the rest of the run emits resolves its entry exactly at the
moment that entry's section closes. -/
theorem triageGo_checks_closed (www : String → Nat → Except String Nat)
    (lines : List String) :
    ∀ (suffix : List String) (i : Nat) (st : TriageState),
      (∀ k, suffix.get? k = lines.get? (i + k)) →
      lines.length = i + suffix.length →
      (∀ e ∈ st.register, ∃ j, lines.get? j = some e ∧ startswith e "[" = true ∧
        j < i ∧ ∀ k s, j < k → k < i → lines.get? k = some s → isFlushHeader s = false) →
      ∀ p ∈ (triageGo www i suffix st).checks, resolvedAtClose lines p := by
  intro suffix
  induction suffix with
  | nil =>
    intro i st _ _ _ p hp
    rw [triageGo_nil] at hp
    cases hp
  | cons line rest ih =>
    intro i st hcorr hlen hreg p hp
    have hline : lines.get? i = some line := by
      have h0 := hcorr 0
      simpa using h0.symm
    have hlen1 : lines.length = i + rest.length + 1 := by
      rw [hlen, List.length_cons]
      omega
    have hreg1 : ∀ e ∈ candAppend line st.register, ∃ j,
        lines.get? j = some e ∧ startswith e "[" = true ∧ j ≤ i ∧
          ∀ k s, j < k → k < i → lines.get? k = some s → isFlushHeader s = false := by
      intro e he
      unfold candAppend at he
      by_cases hc : startswith line "["
      · rw [if_pos hc, List.mem_append] at he
        rcases he with he | he
        · obtain ⟨j, h1, h2, h3, h4⟩ := hreg e he
          exact ⟨j, h1, h2, Nat.le_of_lt h3, h4⟩
        · rw [List.mem_singleton] at he
          subst he
          exact ⟨i, hline, hc, Nat.le_refl i, fun k s hk1 hk2 _ => by omega⟩
      · rw [if_neg hc] at he
        obtain ⟨j, h1, h2, h3, h4⟩ := hreg e he
        exact ⟨j, h1, h2, Nat.le_of_lt h3, h4⟩
    have hchk : (triageGo www i (line :: rest) st).checks =
        (lineStep www i line rest.isEmpty st).1.checks ++
          (triageGo www (i + 1) rest (lineStep www i line rest.isEmpty st).2).checks :=
      rfl
    rw [hchk, List.mem_append] at hp
    rcases hp with hp | hp
    · -- a check of this very iteration
      cases hlast : rest.isEmpty with
      | true =>
        rw [hlast, lineStep_checks_last, List.mem_append] at hp
        have hrest0 : rest = [] := List.isEmpty_iff.mp hlast
        rcases hp with hp | hp
        · by_cases hdr : isFlushHeader line
          · rw [if_pos hdr] at hp
            obtain ⟨hp1, hp2⟩ := mem_header_flush_checks hp
            obtain ⟨j, h1, h2, h3, h4⟩ := hreg1 p.2 hp2
            exact ⟨j, h1, h2, hp1 ▸
              ⟨h3, by omega, h4, Or.inl ⟨line, hline, hdr⟩⟩⟩
          · rw [if_neg hdr] at hp
            cases hp
        · by_cases hdr : isFlushHeader line
          · rw [if_pos hdr] at hp
            unfold eos_flush_checks at hp
            simp at hp
          · rw [if_neg hdr] at hp
            obtain ⟨hp1, hp2⟩ := mem_eos_flush_checks hp
            obtain ⟨j, h1, h2, h3, h4⟩ := hreg1 p.2 hp2
            have hend : p.1 + 1 = lines.length := by
              rw [hp1, hlen1, hrest0]
              simp
            exact ⟨j, h1, h2, hp1 ▸ ⟨h3, by omega, h4, Or.inr (hp1 ▸ hend)⟩⟩
      | false =>
        rw [hlast, lineStep_checks_mid] at hp
        by_cases hdr : isFlushHeader line
        · rw [if_pos hdr] at hp
          obtain ⟨hp1, hp2⟩ := mem_header_flush_checks hp
          obtain ⟨j, h1, h2, h3, h4⟩ := hreg1 p.2 hp2
          exact ⟨j, h1, h2, hp1 ▸
            ⟨h3, by omega, h4, Or.inl ⟨line, hline, hdr⟩⟩⟩
        · rw [if_neg hdr] at hp
          cases hp
    · -- a check of a later iteration
      refine ih (i + 1) (lineStep www i line rest.isEmpty st).2 ?_ ?_ ?_ p hp
      · intro k
        have hk := hcorr (k + 1)
        rw [List.get?_cons_succ] at hk
        have harg : i + (k + 1) = i + 1 + k := by omega
        rw [harg] at hk
        exact hk
      · rw [hlen, List.length_cons]
        omega
      · intro e he
        have hregeq : (lineStep www i line rest.isEmpty st).2.register =
            if isFlushHeader line then [] else candAppend line st.register := rfl
        rw [hregeq] at he
        by_cases hdr : isFlushHeader line
        · rw [if_pos hdr] at he
          cases he
        · rw [if_neg hdr] at he
          obtain ⟨j, h1, h2, h3, h4⟩ := hreg1 e he
          refine ⟨j, h1, h2, by omega, ?_⟩
          intro k s hk1 hk2 hks
          rcases Nat.lt_or_ge k i with hki | hki
          · exact h4 k s hk1 hki hks
          · have hkeq : k = i := by omega
            subst hkeq
            rw [hline] at hks
            cases hks
            exact Bool.not_eq_true _ ▸ (Bool.eq_false_iff.mpr hdr)

/-- **C3.** Over any run: (first conjunct) the lines handed to `checker`
are, in order and with multiplicity, exactly the candidate (`[`-prefixed)
lines of the input — so every buffered candidate is resolved exactly once,
never skipped, never resolved twice; (second conjunct) each such resolution
happens exactly at the moment the candidate's section closes: at the next
flushing header after it, or at the last line of the stream, with no
flushing header in between — never before. -/
theorem candidates_resolved_once_at_close (www : String → Nat → Except String Nat)
    (lines : List String) :
    ((triage_lines www lines).checks.map Prod.snd =
        lines.filter (fun l => startswith l "[")) ∧
      ∀ p ∈ (triage_lines www lines).checks, resolvedAtClose lines p := by
  constructor
  · cases hl : lines with
    | nil => rfl
    | cons l0 ls =>
      have h := triageGo_checks_entries www (l0 :: ls) 0 ⟨"", []⟩ (by simp)
      unfold triage_lines
      rw [h]
      rfl
  · intro p hp
    unfold triage_lines at hp
    refine triageGo_checks_closed www lines lines 0 ⟨"", []⟩ ?_ ?_ ?_ p hp
    · intro k
      rw [Nat.zero_add]
    · rw [Nat.zero_add]
    · intro e he
      cases he

/-- Witness for C3 on a one-candidate stream with every probe failing: the
candidate is checked exactly once, at index 0, which closes its (implicit)
section because it is the last line. -/
theorem candidates_resolved_once_at_close_witness :
    ((triage_lines (fun _ _ => Except.ok 404) ["[a](u)"]).checks.map Prod.snd =
        List.filter (fun l => startswith l "[") ["[a](u)"]) ∧
      resolvedAtClose ["[a](u)"] (0, "[a](u)") :=
  ⟨(candidates_resolved_once_at_close (fun _ _ => Except.ok 404) ["[a](u)"]).1,
    (candidates_resolved_once_at_close (fun _ _ => Except.ok 404) ["[a](u)"]).2
      (0, "[a](u)")
      (by rw [show (triage_lines (fun _ _ => Except.ok 404) ["[a](u)"]).checks =
            [(0, "[a](u)")] from rfl]
          exact List.mem_singleton.mpr rfl)⟩

/-- The printed output of one iteration, explicitly. -/
theorem lineStep_printed (www : String → Nat → Except String Nat) (i : Nat)
    (line : String) (isLast : Bool) (st : TriageState) :
    (lineStep www i line isLast st).1.printed =
      echoes line ++
        (if isFlushHeader line then
            header_flush_printed www st.prevTitle (candAppend line st.register)
          else []) ++
        (if isLast then
            eos_flush_printed www
              (if isFlushHeader line then line else st.prevTitle)
              (if isFlushHeader line then [] else candAppend line st.register)
          else []) := rfl

/-- Whatever `checker` returns affirmatively is the input line plus a
newline. -/
theorem checker_some {www : String → Nat → Except String Nat} {t o : String}
    (h : checker www t = some o) : o = t ++ "\n" := by
  cases hext : extracted_address t with
  | none =>
    have hc : checker www t = none := by
      unfold checker
      rw [hext]
    rw [hc] at h
    cases h
  | some addr =>
    have hc : checker www t =
        if addr = "" then none
        else if (check_url_exists (www (fpm_link addr))).1 then some (t ++ "\n")
        else none := by
      unfold checker
      rw [hext]
    rw [hc] at h
    by_cases ha : addr = ""
    · rw [if_pos ha] at h
      cases h
    · rw [if_neg ha] at h
      by_cases hw : (check_url_exists (www (fpm_link addr))).1 = true
      · rw [if_pos hw] at h
        injection h with h
        exact h.symm
      · rw [if_neg hw] at h
        cases h

/-- Stable insertion inserts, it never invents elements. -/
theorem mem_sorted_insert {x y : String} {l : List String}
    (h : x ∈ sorted_insert y l) : x = y ∨ x ∈ l := by
  induction l with
  | nil =>
    unfold sorted_insert at h
    rw [List.mem_singleton] at h
    exact Or.inl h
  | cons z zs ih =>
    unfold sorted_insert at h
    by_cases hc : casefold_le y z = true
    · rw [if_pos hc, List.mem_cons] at h
      exact h
    · rw [if_neg hc, List.mem_cons] at h
      rcases h with h | h
      · exact Or.inr (h ▸ List.mem_cons_self z zs)
      · rcases ih h with h | h
        · exact Or.inl h
        · exact Or.inr (List.mem_cons_of_mem z h)

/-- The stable sort permutes; membership is preserved. -/
theorem mem_sorted_casefold {x : String} {l : List String}
    (h : x ∈ sorted_casefold l) : x ∈ l := by
  induction l with
  | nil =>
    unfold sorted_casefold at h
    cases h
  | cons y ys ih =>
    unfold sorted_casefold at h
    rcases mem_sorted_insert h with h | h
    · exact h ▸ List.mem_cons_self y ys
    · exact List.mem_cons_of_mem y (ih h)

/-- Anything a header-triggered flush prints is the buffered section title or
an affirmative entry. -/
theorem mem_header_flush_printed {www : String → Nat → Except String Nat}
    {title out : String} {reg : List String}
    (h : out ∈ header_flush_printed www title reg) :
    out = title ++ "\n" ∨ ∃ r ∈ reg, checker www r = some out := by
  unfold header_flush_printed at h
  by_cases h1 : reg.isEmpty
  · rw [if_pos h1] at h
    cases h
  · rw [if_neg h1] at h
    by_cases h2 : (reg.filterMap (checker www)).isEmpty
    · rw [if_pos h2] at h
      cases h
    · rw [if_neg h2, List.mem_cons] at h
      rcases h with h | h
      · exact Or.inl h
      · have h3 := mem_sorted_casefold h
        rw [List.mem_filterMap] at h3
        exact Or.inr h3

/-- Anything the end-of-stream flush prints is the buffered section title or
an affirmative entry. -/
theorem mem_eos_flush_printed {www : String → Nat → Except String Nat}
    {title out : String} {reg : List String}
    (h : out ∈ eos_flush_printed www title reg) :
    out = title ++ "\n" ∨ ∃ r ∈ reg, checker www r = some out := by
  unfold eos_flush_printed at h
  by_cases h2 : (reg.filterMap (checker www)).isEmpty
  · rw [if_pos h2] at h
    cases h
  · rw [if_neg h2, List.mem_cons] at h
    rcases h with h | h
    · exact Or.inl h
    · rw [List.mem_filterMap] at h
      exact Or.inr h

/-- Provenance of every printed string: it is an input line (or a buffered or
title string of the starting state) followed by one newline. -/
theorem triageGo_printed_from (www : String → Nat → Except String Nat) :
    ∀ (suffix : List String) (i : Nat) (st : TriageState) (out : String),
      out ∈ (triageGo www i suffix st).printed →
      (∃ l ∈ suffix, out = l ++ "\n") ∨ (∃ r ∈ st.register, out = r ++ "\n") ∨
        out = st.prevTitle ++ "\n" := by
  intro suffix
  induction suffix with
  | nil =>
    intro i st out h
    rw [triageGo_nil] at h
    cases h
  | cons line rest ih =>
    intro i st out h
    have hpr : (triageGo www i (line :: rest) st).printed =
        (lineStep www i line rest.isEmpty st).1.printed ++
          (triageGo www (i + 1) rest (lineStep www i line rest.isEmpty st).2).printed :=
      rfl
    rw [hpr, List.mem_append] at h
    have hca : ∀ r, r ∈ candAppend line st.register → r ∈ st.register ∨ r = line := by
      intro r hr
      unfold candAppend at hr
      by_cases hc : startswith line "[" = true
      · rw [if_pos hc, List.mem_append] at hr
        rcases hr with hr | hr
        · exact Or.inl hr
        · rw [List.mem_singleton] at hr
          exact Or.inr hr
      · rw [if_neg hc] at hr
        exact Or.inl hr
    rcases h with h | h
    · rw [lineStep_printed, List.mem_append, List.mem_append] at h
      rcases h with (h | h) | h
      · unfold echoes at h
        rw [List.mem_append] at h
        rcases h with h | h
        · by_cases h1 : startswith line "## Fortran code on GitHub" = true
          · rw [if_pos h1, List.mem_singleton] at h
            exact Or.inl ⟨line, List.mem_cons_self line rest, h⟩
          · rw [if_neg h1] at h
            cases h
        · by_cases h2 : startswith line "* [" = true
          · rw [if_pos h2, List.mem_singleton] at h
            exact Or.inl ⟨line, List.mem_cons_self line rest, h⟩
          · rw [if_neg h2] at h
            cases h
      · by_cases hdr : isFlushHeader line = true
        · rw [if_pos hdr] at h
          rcases mem_header_flush_printed h with h | h
          · exact Or.inr (Or.inr h)
          · obtain ⟨r, hr, hcr⟩ := h
            have hout : out = r ++ "\n" := checker_some hcr
            rcases hca r hr with hr2 | hr2
            · exact Or.inr (Or.inl ⟨r, hr2, hout⟩)
            · exact Or.inl ⟨line, List.mem_cons_self line rest, hr2 ▸ hout⟩
        · rw [if_neg hdr] at h
          cases h
      · by_cases hlast : rest.isEmpty = true
        · rw [if_pos hlast] at h
          rcases mem_eos_flush_printed h with h | h
          · by_cases hdr : isFlushHeader line = true
            · rw [if_pos hdr] at h
              exact Or.inl ⟨line, List.mem_cons_self line rest, h⟩
            · rw [if_neg hdr] at h
              exact Or.inr (Or.inr h)
          · obtain ⟨r, hr, hcr⟩ := h
            by_cases hdr : isFlushHeader line = true
            · rw [if_pos hdr] at hr
              cases hr
            · rw [if_neg hdr] at hr
              have hout : out = r ++ "\n" := checker_some hcr
              rcases hca r hr with hr2 | hr2
              · exact Or.inr (Or.inl ⟨r, hr2, hout⟩)
              · exact Or.inl ⟨line, List.mem_cons_self line rest, hr2 ▸ hout⟩
        · rw [if_neg hlast] at h
          cases h
    · rcases ih (i + 1) (lineStep www i line rest.isEmpty st).2 out h with h | h | h
      · obtain ⟨l, hl, hout⟩ := h
        exact Or.inl ⟨l, List.mem_cons_of_mem line hl, hout⟩
      · obtain ⟨r, hr, hout⟩ := h
        have hregeq : (lineStep www i line rest.isEmpty st).2.register =
            if isFlushHeader line then [] else candAppend line st.register := rfl
        rw [hregeq] at hr
        by_cases hdr : isFlushHeader line = true
        · rw [if_pos hdr] at hr
          cases hr
        · rw [if_neg hdr] at hr
          rcases hca r hr with hr2 | hr2
          · exact Or.inr (Or.inl ⟨r, hr2, hout⟩)
          · exact Or.inl ⟨line, List.mem_cons_self line rest, hr2 ▸ hout⟩
      · have hteq : (lineStep www i line rest.isEmpty st).2.prevTitle =
            if isFlushHeader line then line else st.prevTitle := rfl
        rw [hteq] at h
        by_cases hdr : isFlushHeader line = true
        · rw [if_pos hdr] at h
          exact Or.inl ⟨line, List.mem_cons_self line rest, h⟩
        · rw [if_neg hdr] at h
          exact Or.inr (Or.inr h)

/-- Dropping a satisfied prefix twice is dropping it once. -/
theorem dropWhile_dropWhile (p : Char → Bool) (l : List Char) :
    List.dropWhile p (List.dropWhile p l) = List.dropWhile p l := by
  induction l with
  | nil => rfl
  | cons c cs ih =>
    by_cases h : p c = true
    · simp [List.dropWhile_cons, h, ih]
    · simp [List.dropWhile_cons, h]

/-- A prefix of a list with nothing left to drop has nothing to drop. -/
theorem dropWhile_eq_self_of_prefix (p : Char → Bool) (t u : List Char)
    (hpre : t <+: u) (hu : List.dropWhile p u = u) :
    List.dropWhile p t = t := by
  cases t with
  | nil => rfl
  | cons c cs =>
    obtain ⟨r, hr⟩ := hpre
    by_cases h : p c = true
    · exfalso
      rw [← hr, List.cons_append, List.dropWhile_cons_of_pos h] at hu
      have hlen := (List.dropWhile_suffix p (l := cs ++ r)).sublist.length_le
      rw [hu] at hlen
      simp [List.length_cons] at hlen
    · simp [List.dropWhile_cons, h]

/-- Stripping is idempotent at the character-list level. -/
theorem stripChars_idem (l : List Char) : stripChars (stripChars l) = stripChars l := by
  unfold stripChars
  have hu : List.dropWhile isPySpace (List.dropWhile isPySpace l) =
      List.dropWhile isPySpace l := dropWhile_dropWhile isPySpace l
  have hpre : ((List.dropWhile isPySpace l).reverse.dropWhile isPySpace).reverse <+:
      List.dropWhile isPySpace l := by
    have h1 := List.reverse_prefix.mpr
      (List.dropWhile_suffix isPySpace (l := (List.dropWhile isPySpace l).reverse))
    rw [List.reverse_reverse] at h1
    exact h1
  have ht := dropWhile_eq_self_of_prefix isPySpace _ _ hpre hu
  rw [ht, List.reverse_reverse, dropWhile_dropWhile]

/-- `strip` is idempotent. -/
theorem pyStrip_idem (s : String) : pyStrip (pyStrip s) = pyStrip s := by
  unfold pyStrip
  rw [show (String.mk (stripChars s.data)).data = stripChars s.data from rfl,
    stripChars_idem]

/-- **C9.** Leading and trailing whitespace of input lines never influences
the run: the pipeline behaves identically on a pre-stripped input (first
conjunct, so classification happens on stripped text), and every string the
run prints is a stripped input line followed by one newline — never a raw
line — except for the newline printed for the implicit empty initial section
title (second conjunct). -/
theorem input_stripped_before_use (www : String → Nat → Except String Nat)
    (infile : List String) (test : Bool) :
    triage_lines www (file_reader infile test) =
        triage_lines www (file_reader (infile.map pyStrip) test) ∧
      ∀ out ∈ (triage_lines www (file_reader infile test)).printed,
        (∃ raw ∈ infile, out = pyStrip raw ++ "\n") ∨ out = "" ++ "\n" := by
  have hfr : file_reader (infile.map pyStrip) test = file_reader infile test := by
    unfold file_reader
    rw [List.map_map]
    have hmm : infile.map (pyStrip ∘ pyStrip) = infile.map pyStrip :=
      List.map_congr_left (fun a _ => pyStrip_idem a)
    rw [hmm]
  constructor
  · rw [hfr]
  · intro out hout
    unfold triage_lines at hout
    rcases triageGo_printed_from www (file_reader infile test) 0 ⟨"", []⟩ out hout with
      h | h | h
    · obtain ⟨l, hl, hout2⟩ := h
      left
      have hl2 : l ∈ infile.map pyStrip := by
        unfold file_reader at hl
        by_cases ht : test = true
        · rw [if_pos ht] at hl
          exact List.take_subset _ _ hl
        · rw [if_neg ht] at hl
          exact hl
      rw [List.mem_map] at hl2
      obtain ⟨raw, hraw, hlr⟩ := hl2
      exact ⟨raw, hraw, by rw [← hlr] at hout2; exact hout2⟩
    · obtain ⟨r, hr, _⟩ := h
      cases hr
    · exact Or.inr h

/-- Witness for C9: on the raw input line `"  [a](u) "` the emitted entry is
the stripped form followed by a newline. -/
theorem input_stripped_before_use_witness :
    (∃ raw ∈ ["  [a](u) "], "[a](u)" ++ "\n" = pyStrip raw ++ "\n") ∨
      ("[a](u)" ++ "\n" : String) = "" ++ "\n" :=
  (input_stripped_before_use (fun _ _ => Except.ok 200) ["  [a](u) "] false).2
    ("[a](u)" ++ "\n")
    (by rw [show (triage_lines (fun _ _ => Except.ok 200)
          (file_reader ["  [a](u) "] false)).printed = ["\n", "[a](u)\n"] from rfl]
        exact List.mem_cons_of_mem _ (List.mem_singleton.mpr rfl))

/-- The capture group closes at the first `)` when the locator contains
neither `)` nor a newline. -/
theorem findCloseParen_complete (loc post : List Char) (h2 : ')' ∉ loc)
    (h3 : '\n' ∉ loc) : findCloseParen (loc ++ ')' :: post) = some loc := by
  induction loc with
  | nil => rfl
  | cons c cs ih =>
    have hc1 : ¬c = ')' := fun hh => h2 (hh ▸ List.mem_cons_self c cs)
    have hc2 : ¬c = '\n' := fun hh => h3 (hh ▸ List.mem_cons_self c cs)
    rw [List.cons_append]
    unfold findCloseParen
    rw [if_neg hc1, if_neg hc2,
      ih (fun hh => h2 (List.mem_cons_of_mem c hh))
        (fun hh => h3 (List.mem_cons_of_mem c hh))]
    rfl

/-- Whatever the capture group matches is followed by `)` and is free of `)`
and newlines. -/
theorem findCloseParen_sound : ∀ (cs g : List Char), findCloseParen cs = some g →
    ∃ post, cs = g ++ ')' :: post ∧ ')' ∉ g ∧ '\n' ∉ g := by
  intro cs
  induction cs with
  | nil => intro g h; cases h
  | cons c rest ih =>
    intro g h
    unfold findCloseParen at h
    by_cases hc1 : c = ')'
    · rw [if_pos hc1] at h
      injection h with h
      subst h
      exact ⟨rest, by rw [hc1]; rfl, by simp, by simp⟩
    · rw [if_neg hc1] at h
      by_cases hc2 : c = '\n'
      · rw [if_pos hc2] at h
        cases h
      · rw [if_neg hc2] at h
        cases hfc : findCloseParen rest with
        | none => rw [hfc] at h; cases h
        | some g' =>
          rw [hfc] at h
          injection h with h
          subst h
          obtain ⟨post, heq, hg1, hg2⟩ := ih g' hfc
          refine ⟨post, by rw [List.cons_append, heq], ?_, ?_⟩
          · intro hh
            rcases List.mem_cons.mp hh with hh | hh
            · exact hc1 hh.symm
            · exact hg1 hh
          · intro hh
            rcases List.mem_cons.mp hh with hh | hh
            · exact hc2 hh.symm
            · exact hg2 hh

/-- One unfolding step of the lazy matcher. -/
theorem matchInner_cons (c : Char) (rest : List Char) :
    matchInner (c :: rest) =
      if c = ']' then
        match rest with
        | r :: rs =>
          if r = '(' then
            match findCloseParen rs with
            | some g => some g
            | none => matchInner rest
          else matchInner rest
        | [] => none
      else if c = '\n' then none
      else matchInner rest := rfl

/-- The lazy matcher at a `]` followed by anything. -/
theorem matchInner_bracket (r : Char) (rs : List Char) :
    matchInner (']' :: r :: rs) =
      if r = '(' then
        match findCloseParen rs with
        | some g => some g
        | none => matchInner (r :: rs)
      else matchInner (r :: rs) := rfl

/-- The lazy matcher succeeds on any `label](locator)` completion. -/
theorem matchInner_complete : ∀ (lbl loc post : List Char), '\n' ∉ lbl →
    ')' ∉ loc → '\n' ∉ loc →
    (matchInner (lbl ++ ']' :: '(' :: (loc ++ ')' :: post))).isSome = true := by
  intro lbl
  induction lbl with
  | nil =>
    intro loc post _ h2 h3
    rw [List.nil_append, matchInner_bracket, if_pos rfl,
      findCloseParen_complete loc post h2 h3]
    rfl
  | cons c lbl' ih =>
    intro loc post h1 h2 h3
    have hcn : ¬c = '\n' := fun hh => h1 (hh ▸ List.mem_cons_self c lbl')
    have h1' : '\n' ∉ lbl' := fun hh => h1 (List.mem_cons_of_mem c hh)
    rw [List.cons_append]
    by_cases hc : c = ']'
    · subst hc
      cases hrest : lbl' ++ ']' :: '(' :: (loc ++ ')' :: post) with
      | nil => exact absurd hrest (by cases lbl' <;> simp)
      | cons r rs =>
        rw [matchInner_bracket]
        by_cases hr : r = '('
        · rw [if_pos hr]
          cases hfc : findCloseParen rs with
          | some g => simp [hfc]
          | none =>
            rw [← hrest]
            exact ih loc post h1' h2 h3
        · rw [if_neg hr, ← hrest]
          exact ih loc post h1' h2 h3
    · rw [matchInner_cons, if_neg hc, if_neg hcn]
      exact ih loc post h1' h2 h3

/-- Whatever the lazy matcher captures sits inside a decomposition of its
input of the shape `label](capture)rest`, and its label is shortest among
all such decompositions: the capture belongs to the *first* `](` completion,
the way the lazy `.*?` matches. -/
theorem matchInner_sound : ∀ (cs g : List Char), matchInner cs = some g →
    ∃ lbl post, cs = lbl ++ ']' :: '(' :: (g ++ ')' :: post) ∧ '\n' ∉ lbl ∧
      '\n' ∉ g ∧ ')' ∉ g ∧
      ∀ lbl' loc' post', cs = lbl' ++ ']' :: '(' :: (loc' ++ ')' :: post') →
        '\n' ∉ lbl' → '\n' ∉ loc' → ')' ∉ loc' → lbl.length ≤ lbl'.length := by
  intro cs
  induction cs with
  | nil => intro g h; cases h
  | cons c rest ih =>
    intro g h
    by_cases hc : c = ']'
    · subst hc
      cases hrest : rest with
      | nil =>
        rw [hrest] at h
        rw [show matchInner (']' :: []) = none from rfl] at h
        cases h
      | cons r rs =>
        rw [hrest] at h ih
        rw [matchInner_bracket] at h
        have lift :
            (∀ loc' post', r :: rs = '(' :: (loc' ++ ')' :: post') →
              '\n' ∉ loc' → ')' ∉ loc' → False) →
            matchInner (r :: rs) = some g →
            ∃ lbl post,
              ']' :: r :: rs = lbl ++ ']' :: '(' :: (g ++ ')' :: post) ∧ '\n' ∉ lbl ∧
                '\n' ∉ g ∧ ')' ∉ g ∧
                ∀ lbl' loc' post',
                  ']' :: r :: rs = lbl' ++ ']' :: '(' :: (loc' ++ ')' :: post') →
                  '\n' ∉ lbl' → '\n' ∉ loc' → ')' ∉ loc' →
                  lbl.length ≤ lbl'.length := by
          intro hnil hmi
          obtain ⟨lbl0, post0, heq, hn1, hn2, hn3, hmin⟩ := ih g hmi
          refine ⟨']' :: lbl0, post0, by rw [List.cons_append, heq], ?_, hn2, hn3, ?_⟩
          · intro hh
            rcases List.mem_cons.mp hh with hh | hh
            · cases hh
            · exact hn1 hh
          · intro lbl' loc' post' heq' h1' h2' h3'
            cases lbl' with
            | nil =>
              rw [List.nil_append] at heq'
              injection heq' with _ htl
              exact (hnil loc' post' htl h2' h3').elim
            | cons q lbl'' =>
              rw [List.cons_append] at heq'
              injection heq' with _ htl
              have hle := hmin lbl'' loc' post' htl
                (fun hh => h1' (List.mem_cons_of_mem q hh)) h2' h3'
              simp only [List.length_cons]
              omega
        by_cases hr : r = '('
        · subst hr
          cases hfc : findCloseParen rs with
          | some g' =>
            have h2 : some g' = some g := by rw [hfc] at h; exact h
            injection h2 with h2
            subst h2
            obtain ⟨post, heq, hg1, hg2⟩ := findCloseParen_sound rs g' hfc
            refine ⟨[], post, ?_, by simp, hg2, hg1, ?_⟩
            · rw [heq]
              rfl
            · intro lbl' loc' post' _ _ _ _
              exact Nat.zero_le _
          | none =>
            have h2 : matchInner ('(' :: rs) = some g := by rw [hfc] at h; exact h
            refine lift ?_ h2
            intro loc' post' heq0 h2' h3'
            injection heq0 with _ htl
            have hfc2 := findCloseParen_complete loc' post' h3' h2'
            rw [← htl, hfc] at hfc2
            cases hfc2
        · rw [if_neg hr] at h
          refine lift ?_ h
          intro loc' post' heq0 _ _
          injection heq0 with hq _
          exact hr hq
    · rw [matchInner_cons, if_neg hc] at h
      by_cases hn : c = '\n'
      · rw [if_pos hn] at h
        cases h
      · rw [if_neg hn] at h
        obtain ⟨lbl0, post0, heq, hn1, hn2, hn3, hmin⟩ := ih g h
        refine ⟨c :: lbl0, post0, by rw [List.cons_append, heq], ?_, hn2, hn3, ?_⟩
        · intro hh
          rcases List.mem_cons.mp hh with hh | hh
          · exact (hn hh.symm).elim
          · exact hn1 hh
        · intro lbl' loc' post' heq' h1' h2' h3'
          cases lbl' with
          | nil =>
            rw [List.nil_append] at heq'
            injection heq' with hq _
            exact (hc hq).elim
          | cons q lbl'' =>
            rw [List.cons_append] at heq'
            injection heq' with _ htl
            have hle := hmin lbl'' loc' post' htl
              (fun hh => h1' (List.mem_cons_of_mem q hh)) h2' h3'
            simp only [List.length_cons]
            omega

/-- One unfolding step of the search. -/
theorem searchFrom_cons (c : Char) (rest : List Char) :
    searchFrom (c :: rest) =
      if c = '[' then
        match matchInner rest with
        | some g => some g
        | none => searchFrom rest
      else searchFrom rest := rfl

/-- The search succeeds whenever the pattern occurs somewhere in the line. -/
theorem searchFrom_isSome_of (cs pre lbl loc post : List Char)
    (h : Decomp cs pre lbl loc post) : (searchFrom cs).isSome = true := by
  obtain ⟨heq, h1, h2, h3⟩ := h
  subst heq
  induction pre with
  | nil =>
    rw [List.nil_append, searchFrom_cons, if_pos rfl]
    have hmi := matchInner_complete lbl loc post h1 h3 h2
    cases hmm : matchInner (lbl ++ ']' :: '(' :: (loc ++ ')' :: post)) with
    | none =>
      rw [hmm] at hmi
      cases hmi
    | some g => simp [hmm]
  | cons p ps ih =>
    rw [List.cons_append, searchFrom_cons]
    by_cases hp : p = '['
    · rw [if_pos hp]
      cases hmm : matchInner (ps ++ '[' :: (lbl ++ ']' :: '(' :: (loc ++ ')' :: post))) with
      | some g => simp [hmm]
      | none => exact ih
    · rw [if_neg hp]
      exact ih

/-- What the search returns comes from a decomposition whose prefix is
shortest possible: the leftmost occurrence of the pattern. -/
theorem searchFrom_some : ∀ (cs g : List Char), searchFrom cs = some g →
    ∃ pre lbl post, Decomp cs pre lbl g post ∧
      (∀ pre' lbl' loc' post', Decomp cs pre' lbl' loc' post' →
        pre.length ≤ pre'.length) ∧
      ∀ lbl' loc' post', Decomp cs pre lbl' loc' post' →
        lbl.length ≤ lbl'.length := by
  intro cs
  induction cs with
  | nil => intro g h; cases h
  | cons c rest ih =>
    intro g h
    rw [searchFrom_cons] at h
    by_cases hc : c = '['
    · rw [if_pos hc] at h
      cases hmi : matchInner rest with
      | some g0 =>
        have h2 : some g0 = some g := by rw [hmi] at h; exact h
        injection h2 with h2
        subst h2
        obtain ⟨lbl, post, heq, h1, h2, h3, hminl⟩ := matchInner_sound rest g0 hmi
        refine ⟨[], lbl, post, ⟨by rw [List.nil_append, heq, hc], h1, h2, h3⟩, ?_, ?_⟩
        · intro pre' _ _ _ _
          exact Nat.zero_le _
        · intro lbl' loc' post' hd'
          obtain ⟨heq', h1', h2', h3'⟩ := hd'
          rw [List.nil_append] at heq'
          injection heq' with _ htail
          exact hminl lbl' loc' post' htail h1' h2' h3'
      | none =>
        have hrec : searchFrom rest = some g := by rw [hmi] at h; exact h
        obtain ⟨pre0, lbl0, post0, hd0, hmin0, hminl0⟩ := ih g hrec
        obtain ⟨heq0, h10, h20, h30⟩ := hd0
        refine ⟨c :: pre0, lbl0, post0,
          ⟨by rw [List.cons_append, heq0], h10, h20, h30⟩, ?_, ?_⟩
        · intro pre' lbl' loc' post' hd'
          obtain ⟨heq', h1', h2', h3'⟩ := hd'
          cases pre' with
          | nil =>
            exfalso
            rw [List.nil_append] at heq'
            injection heq' with hhead htail
            have hmi2 := matchInner_complete lbl' loc' post' h1' h3' h2'
            rw [← htail, hmi] at hmi2
            cases hmi2
          | cons q qs =>
            rw [List.cons_append] at heq'
            injection heq' with hhead htail
            have hq : Decomp rest qs lbl' loc' post' := ⟨htail, h1', h2', h3'⟩
            have := hmin0 qs lbl' loc' post' hq
            simp only [List.length_cons]
            omega
        · intro lbl' loc' post' hd'
          obtain ⟨heq', h1', h2', h3'⟩ := hd'
          rw [List.cons_append] at heq'
          injection heq' with _ htail
          exact hminl0 lbl' loc' post' ⟨htail, h1', h2', h3'⟩
    · rw [if_neg hc] at h
      obtain ⟨pre0, lbl0, post0, hd0, hmin0, hminl0⟩ := ih g h
      obtain ⟨heq0, h10, h20, h30⟩ := hd0
      refine ⟨c :: pre0, lbl0, post0,
        ⟨by rw [List.cons_append, heq0], h10, h20, h30⟩, ?_, ?_⟩
      · intro pre' lbl' loc' post' hd'
        obtain ⟨heq', h1', h2', h3'⟩ := hd'
        cases pre' with
        | nil =>
          exfalso
          rw [List.nil_append] at heq'
          injection heq' with hhead _
          exact hc hhead
        | cons q qs =>
          rw [List.cons_append] at heq'
          injection heq' with hhead htail
          have hq : Decomp rest qs lbl' loc' post' := ⟨htail, h1', h2', h3'⟩
          have := hmin0 qs lbl' loc' post' hq
          simp only [List.length_cons]
          omega
      · intro lbl' loc' post' hd'
        obtain ⟨heq', h1', h2', h3'⟩ := hd'
        rw [List.cons_append] at heq'
        injection heq' with _ htail
        exact hminl0 lbl' loc' post' ⟨htail, h1', h2', h3'⟩

/-- A `)`-free segment before a `)` sentinel is cut uniquely. -/
theorem sentinel_split : ∀ (loc loc' post post' : List Char), ')' ∉ loc →
    ')' ∉ loc' → loc ++ ')' :: post = loc' ++ ')' :: post' →
    loc = loc' ∧ post = post' := by
  intro loc
  induction loc with
  | nil =>
    intro loc' post post' _ h2 heq
    cases loc' with
    | nil =>
      rw [List.nil_append, List.nil_append] at heq
      injection heq with _ h
      exact ⟨rfl, h⟩
    | cons d ds =>
      rw [List.nil_append, List.cons_append] at heq
      injection heq with h1 _
      exact absurd (by rw [h1]; exact List.mem_cons_self d ds) h2
  | cons c cs ih =>
    intro loc' post post' h1 h2 heq
    cases loc' with
    | nil =>
      rw [List.cons_append, List.nil_append] at heq
      injection heq with hq _
      exact absurd (by rw [← hq]; exact List.mem_cons_self c cs) h1
    | cons d ds =>
      rw [List.cons_append, List.cons_append] at heq
      injection heq with hq htl
      obtain ⟨e1, e2⟩ := ih ds post post' (fun hh => h1 (List.mem_cons_of_mem c hh))
        (fun hh => h2 (List.mem_cons_of_mem d hh)) htl
      exact ⟨by rw [hq, e1], e2⟩

/-- Once the prefix and the label of a decomposition are fixed, its locator
is forced: it is the text up to the first `)`. -/
theorem Decomp_loc_unique {cs pre lbl loc post loc' post' : List Char}
    (h : Decomp cs pre lbl loc post) (h' : Decomp cs pre lbl loc' post') :
    loc' = loc := by
  obtain ⟨heq, _, _, h4⟩ := h
  obtain ⟨heq', _, _, h4'⟩ := h'
  rw [heq] at heq'
  have e1 := List.append_cancel_left heq'
  injection e1 with _ e2
  have e3 := List.append_cancel_left e2
  injection e3 with _ e4
  injection e4 with _ e5
  exact ((sentinel_split loc loc' post post' h4 h4' e5).1).symm

/-- **C5.** The Entry Extractor returns nothing exactly when the line
contains no `[label](locator)` occurrence of the pattern (and, being a total
function, it never crashes); when it returns a locator, that locator is the
capture of the *first* pattern of the line, pinned uniquely: its occurrence
has the shortest possible prefix (the leftmost viable `[`), among
decompositions at that prefix the shortest possible label (the first `](`
completion after that `[`, as the lazy `.*?` matches), and at that prefix
and label every decomposition carries this very locator — so at most the
first pattern is ever used. -/
theorem extractor_first_pattern (s : String) :
    (extracted_address s = none ↔
        ¬ ∃ pre lbl loc post, Decomp s.data pre lbl loc post) ∧
      ∀ g : String, extracted_address s = some g →
        ∃ pre lbl post, Decomp s.data pre lbl g.data post ∧
          (∀ pre' lbl' loc' post', Decomp s.data pre' lbl' loc' post' →
            pre.length ≤ pre'.length) ∧
          (∀ lbl' loc' post', Decomp s.data pre lbl' loc' post' →
            lbl.length ≤ lbl'.length) ∧
          ∀ loc' post', Decomp s.data pre lbl loc' post' → loc' = g.data := by
  constructor
  · constructor
    · intro h hex
      obtain ⟨pre, lbl, loc, post, hd⟩ := hex
      have hs := searchFrom_isSome_of s.data pre lbl loc post hd
      unfold extracted_address re_search_group1 at h
      cases hsf : searchFrom s.data with
      | none =>
        rw [hsf] at hs
        cases hs
      | some l =>
        rw [hsf] at h
        cases h
    · intro h
      unfold extracted_address re_search_group1
      cases hsf : searchFrom s.data with
      | none => rfl
      | some l =>
        exfalso
        obtain ⟨pre, lbl, post, hd, _⟩ := searchFrom_some s.data l hsf
        exact h ⟨pre, lbl, l, post, hd⟩
  · intro g hg
    unfold extracted_address re_search_group1 at hg
    cases hsf : searchFrom s.data with
    | none =>
      rw [hsf] at hg
      cases hg
    | some l =>
      rw [hsf] at hg
      injection hg with hg
      obtain ⟨pre, lbl, post, hd, hminpre, hminlbl⟩ := searchFrom_some s.data l hsf
      subst hg
      refine ⟨pre, lbl, post, hd, hminpre, hminlbl, ?_⟩
      intro loc' post' h'
      exact Decomp_loc_unique hd h'

/-- Witness for C5: on `"[a](b)[c](d)"` the extractor returns `b`, the
locator of the first pattern, with the full pinning (shortest prefix,
shortest label there, unique locator there); on `"no link"` there is no
pattern occurrence. -/
theorem extractor_first_pattern_witness :
    (∃ pre lbl post, Decomp ("[a](b)[c](d)" : String).data pre lbl
        ("b" : String).data post ∧
        (∀ pre' lbl' loc' post',
          Decomp ("[a](b)[c](d)" : String).data pre' lbl' loc' post' →
            pre.length ≤ pre'.length) ∧
        (∀ lbl' loc' post',
          Decomp ("[a](b)[c](d)" : String).data pre lbl' loc' post' →
            lbl.length ≤ lbl'.length) ∧
        ∀ loc' post', Decomp ("[a](b)[c](d)" : String).data pre lbl loc' post' →
          loc' = ("b" : String).data) ∧
      ¬ ∃ pre lbl loc post, Decomp ("no link" : String).data pre lbl loc post :=
  ⟨(extractor_first_pattern "[a](b)[c](d)").2 "b" rfl,
    (extractor_first_pattern "no link").1.mp rfl⟩

/-- **C10.** The earlier revision `xfpm.py` and the final revision
`xfpm_c.py` extract the address with the same `re.search` call on the same
pattern and build the manifest URL with the same suffix, so their extraction
logic is pointwise equal. -/
theorem revisions_extract_equally (text : String) :
    Xfpm.extracted_address text = extracted_address text ∧
      ∀ addr : String, Xfpm.fpm_link addr = fpm_link addr :=
  ⟨rfl, fun _ => rfl⟩

